import Mathlib

/-!
Verification of `simpleperf/generate_art_jni_method_table.py`.

The tool scans source-file texts for a registration marker
`REGISTER_NATIVE_METHODS("<class>")` and for JNI native-method declaration
macros, cross-checks each generated native symbol name against the static
functions declared in the same text, and renders the collected records as a
line-oriented table.

Texts are modelled as `List Char`.  The regular expressions used by the
script are embedded as deterministic scanners: each of the script's patterns
is backtracking-free (every greedy or lazy subpattern is followed by a
character it can never match, so the maximal / minimal run is the only
candidate), hence the scanners below compute exactly the Python `re`
semantics of `search` and `finditer` (leftmost match; for `finditer`,
non-overlapping matches scanning left to right).  Python `assert` failures
are modelled as `Except.error`.
-/

set_option maxRecDepth 16000

/-- Python `\s` on the ASCII range: space, tab, newline, carriage return,
vertical tab, form feed. -/
def isSpaceChar (c : Char) : Bool :=
  c = ' ' || c = '\t' || c = '\n' || c = '\r' || c = '\x0b' || c = '\x0c'

/-- Python `\w` on the ASCII range: letters, digits and underscore. -/
def isWordChar (c : Char) : Bool :=
  c.isAlphanum || c = '_'

/-- `startsWith pat l` holds when `pat` is a prefix of `l`
(the anchored match of a literal regex fragment). -/
def startsWith : List Char → List Char → Bool
  | [], _ => true
  | _ :: _, [] => false
  | a :: as, b :: bs => a = b && startsWith as bs

/-- Greedy `(\w+)`: the maximal non-empty run of word characters, with the
remainder of the text.  `none` when the text does not start with a word
character. -/
def spanWord (l : List Char) : Option (List Char × List Char) :=
  match l.takeWhile isWordChar with
  | [] => none
  | g => some (g, l.dropWhile isWordChar)

/-- Greedy `\s+` followed by a non-space continuation: requires at least one
space character and consumes the maximal run, returning the remainder. -/
def spanSpace1 (l : List Char) : Option (List Char) :=
  match l with
  | [] => none
  | c :: rest => if isSpaceChar c then some (rest.dropWhile isSpaceChar) else none

/-- The literal part of `class_name_pattern`:
the regex is `REGISTER_NATIVE_METHODS\("(.+?)"\)`. -/
def regMarkerLit : List Char := "REGISTER_NATIVE_METHODS(\"".toList

/-- The lazy `(.+?)"\)` tail of the registration marker: having already
consumed `acc.reverse` (non-empty, newline-free), stop at the first `")` and
return the captured group and the remainder after the whole match. -/
def lazyCaptureGo (acc : List Char) : List Char → Option (List Char × List Char)
  | '"' :: ')' :: rest => some (acc.reverse, rest)
  | c :: rest => if c = '\n' then none else lazyCaptureGo (c :: acc) rest
  | [] => none

/-- Lazy `(.+?)"\)`: at least one captured character ( `.` never matches a
newline), then the earliest possible `")`. -/
def lazyCapture : List Char → Option (List Char × List Char)
  | [] => none
  | c :: rest => if c = '\n' then none else lazyCaptureGo [c] rest

/-- `class_name_pattern.search`: the leftmost match of
`REGISTER_NATIVE_METHODS\("(.+?)"\)`, returning the captured group and the
text after the match end (`text[m.end():]`), or `none`. -/
def searchClassName : List Char → Option (List Char × List Char)
  | [] => none
  | c :: tl =>
    if startsWith regMarkerLit (c :: tl) then
      match lazyCapture ((c :: tl).drop regMarkerLit.length) with
      | some (cap, rest) => some (cap, rest)
      | none => searchClassName tl
    else searchClassName tl

/-- `\(\s*(\w+)\s*,\s*(\w+)` — the argument part of the plain method
patterns, after the macro name and `(` have been consumed. -/
def matchArgs2 (l : List Char) : Option ((List Char × List Char) × List Char) :=
  match spanWord (l.dropWhile isSpaceChar) with
  | none => none
  | some (g1, r2) =>
    match r2.dropWhile isSpaceChar with
    | ',' :: r3 =>
      match spanWord (r3.dropWhile isSpaceChar) with
      | none => none
      | some (g2, r4) => some ((g1, g2), r4)
    | _ => none

/-- Anchored match of a plain method pattern `\s+NAME\(\s*(\w+)\s*,\s*(\w+)`
(`lit` is `NAME(`): the two captured groups and the text after the match. -/
def matchSimpleAt (lit : List Char) (l : List Char) :
    Option ((List Char × List Char) × List Char) :=
  match spanSpace1 l with
  | none => none
  | some r1 =>
    if startsWith lit r1 then matchArgs2 (r1.drop lit.length) else none

/-- `\(\s*(\w+)\s*,\s*(\w+)\s*,[^,]*,\s*(\w+)` — the argument part of the
overloaded method patterns, after the macro name and `(`. -/
def matchArgs3 (l : List Char) : Option ((List Char × List Char × List Char) × List Char) :=
  match spanWord (l.dropWhile isSpaceChar) with
  | none => none
  | some (g1, r2) =>
    match r2.dropWhile isSpaceChar with
    | ',' :: r3 =>
      match spanWord (r3.dropWhile isSpaceChar) with
      | none => none
      | some (g2, r4) =>
        match r4.dropWhile isSpaceChar with
        | ',' :: r5 =>
          match r5.dropWhile (fun c => c != ',') with
          | ',' :: r6 =>
            match spanWord (r6.dropWhile isSpaceChar) with
            | none => none
            | some (g3, r7) => some ((g1, g2, g3), r7)
          | _ => none
        | _ => none
    | _ => none

/-- Anchored match of an overloaded method pattern
`\s+OVERLOADED_NAME\(\s*(\w+)\s*,\s*(\w+)\s*,[^,]*,\s*(\w+)`
(`lit` is `OVERLOADED_NAME(`). -/
def matchOverloadAt (lit : List Char) (l : List Char) :
    Option ((List Char × List Char × List Char) × List Char) :=
  match spanSpace1 l with
  | none => none
  | some r1 =>
    if startsWith lit r1 then matchArgs3 (r1.drop lit.length) else none

/-- Anchored match of `static_function_pattern` = `static\s+\w+\s+(\w+)\(`:
the captured function name and the text after the match. -/
def matchStaticAt (l : List Char) : Option (List Char × List Char) :=
  if startsWith ("static".toList) l then
    match spanSpace1 (l.drop 6) with
    | none => none
    | some r1 =>
      match spanWord r1 with
      | none => none
      | some (_, r2) =>
        match spanSpace1 r2 with
        | none => none
        | some r3 =>
          match spanWord r3 with
          | none => none
          | some (g, r4) =>
            match r4 with
            | '(' :: r5 => some (g, r5)
            | _ => none
  else none

/-- `finditer` driver: try the anchored matcher at every position from left
to right; on a match, emit it and continue right after its end
(non-overlapping matches).  The fuel starts at `text.length`; every step
consumes one unit of fuel and at least one character of text (each of the
matchers above consumes at least one character on success), so the fuel
never runs out before the text does — see `finditerAux_fuel_irrelevant`. -/
def finditerAux {α : Type} (matchAt : List Char → Option (α × List Char)) :
    Nat → List Char → List α
  | 0, _ => []
  | _ + 1, [] => []
  | fuel + 1, c :: tl =>
    match matchAt (c :: tl) with
    | some (a, rest) => a :: finditerAux matchAt fuel rest
    | none => finditerAux matchAt fuel tl

/-- All non-overlapping matches of an anchored matcher, left to right. -/
def finditer {α : Type} (matchAt : List Char → Option (α × List Char))
    (text : List Char) : List α :=
  finditerAux matchAt text.length text

/-- `p.finditer(text)` for a plain method pattern with macro literal `lit`. -/
def finditerSimple (lit : List Char) (text : List Char) : List (List Char × List Char) :=
  finditer (matchSimpleAt lit) text

/-- `p.finditer(text)` for an overloaded method pattern with macro literal `lit`. -/
def finditerOverload (lit : List Char) (text : List Char) :
    List (List Char × List Char × List Char) :=
  finditer (matchOverloadAt lit) text

/-- The names captured by `static_function_pattern.finditer(text)`
(`_check_methods` puts them in a set; only membership is ever used). -/
def staticFunNames (text : List Char) : List (List Char) :=
  finditer matchStaticAt text

/-- The macro literals of `method_patterns`, in construction order:
for each of `NATIVE_METHOD`, `FAST_NATIVE_METHOD`, `CRITICAL_NATIVE_METHOD`,
first the plain and then the `AUTOSIG` variant. -/
def simpleLits : List (List Char) :=
  ["NATIVE_METHOD(".toList, "NATIVE_METHODAUTOSIG(".toList,
   "FAST_NATIVE_METHOD(".toList, "FAST_NATIVE_METHODAUTOSIG(".toList,
   "CRITICAL_NATIVE_METHOD(".toList, "CRITICAL_NATIVE_METHODAUTOSIG(".toList]

/-- The macro literals of `overload_method_patterns`, in construction order. -/
def overloadLits : List (List Char) :=
  ["OVERLOADED_NATIVE_METHOD(".toList, "OVERLOADED_FAST_NATIVE_METHOD(".toList,
   "OVERLOADED_CRITICAL_NATIVE_METHOD(".toList]

/-- The `ArtJniMethod` dataclass. -/
structure ArtJniMethod where
  /-- like `java.lang.reflect.Method` -/
  class_name : List Char
  /-- like `invoke` -/
  java_method_name : List Char
  /-- like `Method_invoke` -/
  native_method_name : List Char
deriving DecidableEq, Repr

/-- `c.replace('/', '.')` on one character. -/
def slashToDot (c : Char) : Char := if c = '/' then '.' else c

/-- `_get_class_name`: `None` when the registration marker does not match;
otherwise the first match's captured group with `/` replaced by `.`, after
asserting that no second match follows the first (`Except.error` models the
`assert` failure). -/
def get_class_name (text : List Char) : Except String (Option (List Char)) :=
  match searchClassName text with
  | none => Except.ok none
  | some (cap, rest) =>
    match searchClassName rest with
    | some _ => Except.error ("REGISTER_NATIVE_METHODS matches more than once")
    | none => Except.ok (some (cap.map slashToDot))

/-- `class_name[class_name.rfind('.') + 1:]`: the suffix after the last `.`
(the whole string when there is no `.`, since `rfind` returns `-1`). -/
def classBaseName (s : List Char) : List Char :=
  (s.reverse.takeWhile (fun c => c != '.')).reverse

/-- The loop body of `_get_methods` over one plain pattern's matches: assert
that group 1 is the class base name, and build the record
`ArtJniMethod(class_name, m.group(2), class_base_name + '_' + m.group(2))`. -/
def mkSimpleRecords (cn base : List Char) :
    List (List Char × List Char) → Except String (List ArtJniMethod)
  | [] => Except.ok []
  | (g1, g2) :: rest =>
    if g1 = base then
      match mkSimpleRecords cn base rest with
      | Except.ok ms => Except.ok (⟨cn, g2, base ++ '_' :: g2⟩ :: ms)
      | Except.error e => Except.error e
    else Except.error ("class base name mismatch in method declaration")

/-- The loop body of `_get_methods` over one overloaded pattern's matches:
assert that group 1 is the class base name, and build the record
`ArtJniMethod(class_name, m.group(2), class_base_name + '_' + m.group(3))`. -/
def mkOverloadRecords (cn base : List Char) :
    List (List Char × List Char × List Char) → Except String (List ArtJniMethod)
  | [] => Except.ok []
  | (g1, g2, g3) :: rest =>
    if g1 = base then
      match mkOverloadRecords cn base rest with
      | Except.ok ms => Except.ok (⟨cn, g2, base ++ '_' :: g3⟩ :: ms)
      | Except.error e => Except.error e
    else Except.error ("class base name mismatch in overloaded method declaration")

/-- The first loop of `_get_methods`: the plain patterns in order, each
pattern's matches in text order, records concatenated. -/
def simpleRecordsFor (text cn base : List Char) :
    List (List Char) → Except String (List ArtJniMethod)
  | [] => Except.ok []
  | lit :: lits =>
    match mkSimpleRecords cn base (finditerSimple lit text) with
    | Except.error e => Except.error e
    | Except.ok ms =>
      match simpleRecordsFor text cn base lits with
      | Except.error e => Except.error e
      | Except.ok rest => Except.ok (ms ++ rest)

/-- The second loop of `_get_methods`: the overloaded patterns in order. -/
def overloadRecordsFor (text cn base : List Char) :
    List (List Char) → Except String (List ArtJniMethod)
  | [] => Except.ok []
  | lit :: lits =>
    match mkOverloadRecords cn base (finditerOverload lit text) with
    | Except.error e => Except.error e
    | Except.ok ms =>
      match overloadRecordsFor text cn base lits with
      | Except.error e => Except.error e
      | Except.ok rest => Except.ok (ms ++ rest)

/-- `_get_methods`. -/
def get_methods (text cn : List Char) : Except String (List ArtJniMethod) :=
  match simpleRecordsFor text cn (classBaseName cn) simpleLits with
  | Except.error e => Except.error e
  | Except.ok s =>
    match overloadRecordsFor text cn (classBaseName cn) overloadLits with
    | Except.error e => Except.error e
    | Except.ok o => Except.ok (s ++ o)

/-- `_check_methods`: assert that every record's native method name is among
the static function names declared in the same text. -/
def check_methods (text : List Char) : List ArtJniMethod → Except String Unit
  | [] => Except.ok ()
  | m :: rest =>
    if m.native_method_name ∈ staticFunNames text then check_methods text rest
    else Except.error ("native method is not a static function in this file")

/-- `parse_methods` on a file's text. -/
def parse_methods (text : List Char) : Except String (List ArtJniMethod) :=
  match get_class_name text with
  | Except.error e => Except.error e
  | Except.ok none => Except.ok []
  | Except.ok (some cn) =>
    match get_methods text cn with
    | Except.error e => Except.error e
    | Except.ok ms =>
      match check_methods text ms with
      | Except.error e => Except.error e
      | Except.ok _ => Except.ok ms

/-- `collect_art_jni_methods`, over the iterated files' texts. -/
def collect_art_jni_methods : List (List Char) → Except String (List ArtJniMethod)
  | [] => Except.ok []
  | f :: fs =>
    match parse_methods f with
    | Except.error e => Except.error e
    | Except.ok ms =>
      match collect_art_jni_methods fs with
      | Except.error e => Except.error e
      | Except.ok rest => Except.ok (ms ++ rest)

/-- The first header comment line of the rendered table. -/
def header1 : List Char :=
  "// This file is generated by generate_art_jni_method_table.py.".toList

/-- The second header comment line of the rendered table. -/
def header2 : List Char := "// clang-format off".toList

/-- One rendered record line:
`ART_JNI_METHOD("<class>.<java_method>", "art::<native_method>")`. -/
def fmtLine (m : ArtJniMethod) : List Char :=
  "ART_JNI_METHOD(\"".toList ++ m.class_name ++ ('.' :: m.java_method_name) ++
    "\", \"art::".toList ++ m.native_method_name ++ "\")".toList

/-- `'\n'.join(lines)`: no trailing newline. -/
def joinNl : List (List Char) → List Char
  | [] => []
  | [l] => l
  | l :: ls => l ++ '\n' :: joinNl ls

/-- `art_jni_methods_to_str`. -/
def art_jni_methods_to_str (methods : List ArtJniMethod) : List Char :=
  joinNl (header1 :: header2 :: methods.map fmtLine)

/-- The observable outcome of a completed run of `main`: the returned
boolean (`sys.exit(0 if main() else 1)`) and the text written to the output
file, if any. -/
structure RunResult where
  success : Bool
  written : Option (List Char)
deriving DecidableEq, Repr

/-- `main`: collect the records, render them; in check-only mode compare the
rendered text with the stored output file's text without writing, otherwise
overwrite the output file.  An `assert` failure anywhere during collection is
an uncaught exception: no comparison and no write happens. -/
def mainRun (checkOnly : Bool) (files : List (List Char)) (stored : List Char) :
    Except String RunResult :=
  match collect_art_jni_methods files with
  | Except.error e => Except.error e
  | Except.ok methods =>
    let text := art_jni_methods_to_str methods
    if checkOnly then
      if text = stored then Except.ok ⟨true, none⟩ else Except.ok ⟨false, none⟩
    else Except.ok ⟨true, some text⟩

/-- The process exit code: `0` when `main` returns `True`, `1` when it
returns `False` or dies on an uncaught `AssertionError`. -/
def exitCode (r : Except String RunResult) : Nat :=
  match r with
  | Except.ok res => if res.success then 0 else 1
  | Except.error _ => 1

/-- Splitting a text at each newline (inverse of `joinNl` for newline-free
lines); used to state the line structure of the rendered output. -/
def splitNl : List Char → List (List Char)
  | [] => [[]]
  | c :: rest =>
    if c = '\n' then [] :: splitNl rest
    else
      match splitNl rest with
      | [] => [[c]]
      | l :: ls => (c :: l) :: ls

/-- The record a plain-pattern match turns into. -/
def mkSimpleRec (cn base : List Char) (p : List Char × List Char) : ArtJniMethod :=
  ⟨cn, p.2, base ++ '_' :: p.2⟩

/-- The record an overloaded-pattern match turns into. -/
def mkOverloadRec (cn base : List Char) (p : List Char × List Char × List Char) :
    ArtJniMethod :=
  ⟨cn, p.2.1, base ++ '_' :: p.2.2⟩

/-- The records of one file in the order `_get_methods` produces them:
grouped by pattern (the six plain patterns first, then the three overloaded
ones), each group in text order. -/
def fileRecords (text cn : List Char) : List ArtJniMethod :=
  (simpleLits.map (fun lit => (finditerSimple lit text).map (mkSimpleRec cn (classBaseName cn)))).flatten
    ++ (overloadLits.map (fun lit => (finditerOverload lit text).map (mkOverloadRec cn (classBaseName cn)))).flatten

/-- The number of plain-pattern matches in a text. -/
def numSimpleMatches (text : List Char) : Nat :=
  (simpleLits.map (fun lit => (finditerSimple lit text).length)).sum

/-- The number of overloaded-pattern matches in a text. -/
def numOverloadMatches (text : List Char) : Nat :=
  (overloadLits.map (fun lit => (finditerOverload lit text).length)).sum

/-- The total number of native-method declarations matched in a text. -/
def numDeclMatches (text : List Char) : Nat :=
  numSimpleMatches text + numOverloadMatches text

/-- A well-formed file: one registration, one declaration, backing static
function present. -/
def exFileText : List Char :=
  ("REGISTER_NATIVE_METHODS(\"a.b.Foo\")\nstatic int Foo_bar(JNIEnv);\n NATIVE_METHOD(Foo, bar, sig)\n").toList

/-- The record extracted from `exFileText`. -/
def exRec : ArtJniMethod := ⟨"a.b.Foo".toList, "bar".toList, "Foo_bar".toList⟩

/-- A file declaring a native method whose backing static function is
missing. -/
def noStaticText : List Char :=
  ("REGISTER_NATIVE_METHODS(\"a.b.Foo\")\n NATIVE_METHOD(Foo, bar, sig)\n").toList

/-- The part of `mixedOrderText` before the two method declarations. -/
def mixedOrderPre : List Char :=
  ("REGISTER_NATIVE_METHODS(\"a.b.Foo\")\nstatic int Foo_m1(int);\nstatic int Foo_m2(int);\n ").toList

/-- A file whose `FAST_NATIVE_METHOD` declaration (method `m1`) textually
precedes its `NATIVE_METHOD` declaration (method `m2`). -/
def mixedOrderText : List Char :=
  mixedOrderPre ++ ("FAST_NATIVE_METHOD(Foo, m1, s1)\n NATIVE_METHOD(Foo, m2, s2)\n").toList

/-- A file whose registration marker appears twice. -/
def dupMarkerText : List Char :=
  ("REGISTER_NATIVE_METHODS(\"a.b.Foo\")\nREGISTER_NATIVE_METHODS(\"a.b.Bar\")\n").toList

/-- A file whose declaration's class argument differs from the registered
class's base name. -/
def wrongClassText : List Char :=
  ("REGISTER_NATIVE_METHODS(\"a.b.Foo\")\n NATIVE_METHOD(Bar, baz, sig)\n").toList

/-- A file with declarations but no registration marker. -/
def noMarkerText : List Char :=
  ("static int Foo_bar(JNIEnv);\n NATIVE_METHOD(Foo, bar, sig)\n").toList

/-- A file whose registration marker uses `/` as the class separator. -/
def slashClassText : List Char :=
  ("REGISTER_NATIVE_METHODS(\"java/lang/reflect/Method\")\nstatic int Method_invoke(JNIEnv);\n NATIVE_METHOD(Method, invoke, sig)\n").toList

/-! ## Characterization lemmas -/

theorem mkSimpleRecords_ok (cn base : List Char) :
    ∀ ps ms, mkSimpleRecords cn base ps = Except.ok ms →
      ms = ps.map (mkSimpleRec cn base) ∧ ∀ p ∈ ps, p.1 = base := by
  intro ps
  induction ps with
  | nil =>
    intro ms h
    simp only [mkSimpleRecords] at h
    cases h
    exact ⟨rfl, by simp⟩
  | cons p ps ih =>
    intro ms h
    obtain ⟨g1, g2⟩ := p
    simp only [mkSimpleRecords] at h
    split at h
    case isTrue hg =>
      cases hrec : mkSimpleRecords cn base ps with
      | error e => rw [hrec] at h; cases h
      | ok tail =>
        rw [hrec] at h
        cases h
        obtain ⟨htail, hall⟩ := ih tail hrec
        subst hg htail
        refine ⟨rfl, ?_⟩
        intro q hq
        rcases List.mem_cons.mp hq with h1 | h2
        · subst h1; rfl
        · exact hall q h2
    case isFalse => cases h

theorem mkOverloadRecords_ok (cn base : List Char) :
    ∀ ps ms, mkOverloadRecords cn base ps = Except.ok ms →
      ms = ps.map (mkOverloadRec cn base) ∧ ∀ p ∈ ps, p.1 = base := by
  intro ps
  induction ps with
  | nil =>
    intro ms h
    simp only [mkOverloadRecords] at h
    cases h
    exact ⟨rfl, by simp⟩
  | cons p ps ih =>
    intro ms h
    obtain ⟨g1, g2, g3⟩ := p
    simp only [mkOverloadRecords] at h
    split at h
    case isTrue hg =>
      cases hrec : mkOverloadRecords cn base ps with
      | error e => rw [hrec] at h; cases h
      | ok tail =>
        rw [hrec] at h
        cases h
        obtain ⟨htail, hall⟩ := ih tail hrec
        subst hg htail
        refine ⟨rfl, ?_⟩
        intro q hq
        rcases List.mem_cons.mp hq with h1 | h2
        · subst h1; rfl
        · exact hall q h2
    case isFalse => cases h

theorem simpleRecordsFor_ok (text cn base : List Char) :
    ∀ lits ms, simpleRecordsFor text cn base lits = Except.ok ms →
      ms = (lits.map (fun lit => (finditerSimple lit text).map (mkSimpleRec cn base))).flatten ∧
        ∀ lit ∈ lits, ∀ p ∈ finditerSimple lit text, p.1 = base := by
  intro lits
  induction lits with
  | nil =>
    intro ms h
    simp only [simpleRecordsFor] at h
    cases h
    exact ⟨rfl, by simp⟩
  | cons lit lits ih =>
    intro ms h
    simp only [simpleRecordsFor] at h
    cases hhd : mkSimpleRecords cn base (finditerSimple lit text) with
    | error e => rw [hhd] at h; cases h
    | ok hd =>
      rw [hhd] at h
      cases htl : simpleRecordsFor text cn base lits with
      | error e => rw [htl] at h; cases h
      | ok tl =>
        rw [htl] at h
        cases h
        obtain ⟨hhd1, hhd2⟩ := mkSimpleRecords_ok cn base _ hd hhd
        obtain ⟨htl1, htl2⟩ := ih tl htl
        subst hhd1 htl1
        refine ⟨by simp, ?_⟩
        intro l hl p hp
        rcases List.mem_cons.mp hl with h1 | h2
        · subst h1; exact hhd2 p hp
        · exact htl2 l h2 p hp

theorem overloadRecordsFor_ok (text cn base : List Char) :
    ∀ lits ms, overloadRecordsFor text cn base lits = Except.ok ms →
      ms = (lits.map (fun lit => (finditerOverload lit text).map (mkOverloadRec cn base))).flatten ∧
        ∀ lit ∈ lits, ∀ p ∈ finditerOverload lit text, p.1 = base := by
  intro lits
  induction lits with
  | nil =>
    intro ms h
    simp only [overloadRecordsFor] at h
    cases h
    exact ⟨rfl, by simp⟩
  | cons lit lits ih =>
    intro ms h
    simp only [overloadRecordsFor] at h
    cases hhd : mkOverloadRecords cn base (finditerOverload lit text) with
    | error e => rw [hhd] at h; cases h
    | ok hd =>
      rw [hhd] at h
      cases htl : overloadRecordsFor text cn base lits with
      | error e => rw [htl] at h; cases h
      | ok tl =>
        rw [htl] at h
        cases h
        obtain ⟨hhd1, hhd2⟩ := mkOverloadRecords_ok cn base _ hd hhd
        obtain ⟨htl1, htl2⟩ := ih tl htl
        subst hhd1 htl1
        refine ⟨by simp, ?_⟩
        intro l hl p hp
        rcases List.mem_cons.mp hl with h1 | h2
        · subst h1; exact hhd2 p hp
        · exact htl2 l h2 p hp

theorem get_methods_ok (text cn : List Char) (ms : List ArtJniMethod)
    (h : get_methods text cn = Except.ok ms) : ms = fileRecords text cn := by
  simp only [get_methods] at h
  cases hs : simpleRecordsFor text cn (classBaseName cn) simpleLits with
  | error e => rw [hs] at h; cases h
  | ok s =>
    rw [hs] at h
    cases ho : overloadRecordsFor text cn (classBaseName cn) overloadLits with
    | error e => rw [ho] at h; cases h
    | ok o =>
      rw [ho] at h
      cases h
      obtain ⟨hs1, _⟩ := simpleRecordsFor_ok text cn (classBaseName cn) _ s hs
      obtain ⟨ho1, _⟩ := overloadRecordsFor_ok text cn (classBaseName cn) _ o ho
      subst hs1 ho1
      rfl

theorem get_methods_ok_groups (text cn : List Char) (ms : List ArtJniMethod)
    (h : get_methods text cn = Except.ok ms) :
    (∀ lit ∈ simpleLits, ∀ p ∈ finditerSimple lit text, p.1 = classBaseName cn) ∧
      ∀ lit ∈ overloadLits, ∀ p ∈ finditerOverload lit text, p.1 = classBaseName cn := by
  simp only [get_methods] at h
  cases hs : simpleRecordsFor text cn (classBaseName cn) simpleLits with
  | error e => rw [hs] at h; cases h
  | ok s =>
    rw [hs] at h
    cases ho : overloadRecordsFor text cn (classBaseName cn) overloadLits with
    | error e => rw [ho] at h; cases h
    | ok o =>
      exact ⟨(simpleRecordsFor_ok text cn (classBaseName cn) _ s hs).2,
        (overloadRecordsFor_ok text cn (classBaseName cn) _ o ho).2⟩

theorem check_methods_ok (text : List Char) :
    ∀ ms u, check_methods text ms = Except.ok u →
      ∀ m ∈ ms, m.native_method_name ∈ staticFunNames text := by
  intro ms
  induction ms with
  | nil => intro u _ m hm; cases hm
  | cons m ms ih =>
    intro u h q hq
    simp only [check_methods] at h
    split at h
    case isTrue hmem =>
      rcases List.mem_cons.mp hq with h1 | h2
      · subst h1; assumption
      · exact ih u h q h2
    case isFalse => cases h

theorem check_methods_error_of_missing (text : List Char) :
    ∀ ms m, m ∈ ms → m.native_method_name ∉ staticFunNames text →
      ∃ e, check_methods text ms = Except.error e := by
  intro ms
  induction ms with
  | nil => intro m hm; cases hm
  | cons q ms ih =>
    intro m hm hmiss
    simp only [check_methods]
    split
    case isTrue hmem =>
      rcases List.mem_cons.mp hm with h1 | h2
      · subst h1; exact absurd hmem hmiss
      · exact ih m h2 hmiss
    case isFalse => exact ⟨_, rfl⟩

theorem collect_error_of_mem (text : List Char) :
    ∀ files, text ∈ files → (∃ e, parse_methods text = Except.error e) →
      ∃ e, collect_art_jni_methods files = Except.error e := by
  intro files
  induction files with
  | nil => intro h; cases h
  | cons f fs ih =>
    intro hmem ⟨e, he⟩
    simp only [collect_art_jni_methods]
    rcases List.mem_cons.mp hmem with h1 | h2
    · subst h1; rw [he]; exact ⟨e, rfl⟩
    · cases hf : parse_methods f with
      | error e' => exact ⟨e', rfl⟩
      | ok ms =>
        obtain ⟨e'', he''⟩ := ih h2 ⟨e, he⟩
        rw [he'']
        exact ⟨e'', rfl⟩

theorem splitNl_no_newline (l : List Char) (h : '\n' ∉ l) : splitNl l = [l] := by
  induction l with
  | nil => rfl
  | cons c rest ih =>
    have hc : c ≠ '\n' := fun hc => h (hc ▸ List.mem_cons_self c rest)
    have hrest : '\n' ∉ rest := fun hr => h (List.mem_cons_of_mem c hr)
    simp only [splitNl, if_neg hc, ih hrest]

theorem splitNl_append_newline (l t : List Char) (h : '\n' ∉ l) :
    splitNl (l ++ '\n' :: t) = l :: splitNl t := by
  induction l with
  | nil => simp [splitNl]
  | cons c rest ih =>
    have hc : c ≠ '\n' := fun hc => h (hc ▸ List.mem_cons_self c rest)
    have hrest : '\n' ∉ rest := fun hr => h (List.mem_cons_of_mem c hr)
    simp only [List.cons_append, splitNl, if_neg hc, List.append_eq]
    rw [ih hrest]

theorem splitNl_joinNl :
    ∀ ls : List (List Char), ls ≠ [] → (∀ l ∈ ls, '\n' ∉ l) →
      splitNl (joinNl ls) = ls := by
  intro ls
  induction ls with
  | nil => intro h; cases h rfl
  | cons l ls ih =>
    intro _ hnl
    cases ls with
    | nil => exact splitNl_no_newline l (hnl l (List.mem_cons_self l []))
    | cons l' ls' =>
      have h1 : joinNl (l :: l' :: ls') = l ++ '\n' :: joinNl (l' :: ls') := rfl
      rw [h1, splitNl_append_newline l _ (hnl l (List.mem_cons_self l _)),
        ih (List.cons_ne_nil l' ls') (fun q hq => hnl q (List.mem_cons_of_mem l hq))]

theorem joinNl_concat (ls : List (List Char)) (x : List Char) (h : ls ≠ []) :
    joinNl (ls ++ [x]) = joinNl ls ++ '\n' :: x := by
  induction ls with
  | nil => cases h rfl
  | cons l ls ih =>
    cases ls with
    | nil => rfl
    | cons l' ls' =>
      have h1 : joinNl ((l :: l' :: ls') ++ [x]) = l ++ '\n' :: joinNl ((l' :: ls') ++ [x]) := rfl
      rw [h1, ih (List.cons_ne_nil l' ls')]
      show l ++ '\n' :: (joinNl (l' :: ls') ++ '\n' :: x) =
        (l ++ '\n' :: joinNl (l' :: ls')) ++ '\n' :: x
      simp [List.append_assoc]

theorem joinNl_getLast (ls : List (List Char)) (c : Char)
    (h : ls.getLast? = some l) (hc : l.getLast? = some c) :
    (joinNl ls).getLast? = some c := by
  induction ls with
  | nil => cases h
  | cons a ls ih =>
    cases ls with
    | nil =>
      simp only [List.getLast?_singleton] at h
      cases h
      exact hc
    | cons a' ls' =>
      have h1 : joinNl (a :: a' :: ls') = a ++ '\n' :: joinNl (a' :: ls') := rfl
      rw [h1]
      have h2 : (a' :: ls').getLast? = some l := by
        rwa [List.getLast?_cons_cons] at h
      have h3 := ih h2
      rw [List.getLast?_append_of_ne_nil a (List.cons_ne_nil '\n' _)]
      cases hj : joinNl (a' :: ls') with
      | nil => rw [hj] at h3; cases h3
      | cons y ys =>
        rw [hj] at h3
        rw [List.getLast?_cons_cons]
        exact h3

theorem parse_methods_eq_of (text cn : List Char) (ms : List ArtJniMethod)
    (h1 : get_class_name text = Except.ok (some cn))
    (h2 : get_methods text cn = Except.ok ms)
    (h3 : check_methods text ms = Except.ok ()) :
    parse_methods text = Except.ok ms := by
  simp only [parse_methods, h1, h2, h3]

/-! ## Claim theorems -/

/-- C1: if the records extracted from a file include a method whose generated
native symbol name is not among the static function names declared in that
file's text, then extraction raises a fatal fault (`parse_methods` returns an
error), and any run over a file list containing that file aborts with an
error before any output is rendered or written (no `RunResult`, hence no
written text, is ever produced). -/
theorem C1_missing_static_faults (text cn : List Char) (ms : List ArtJniMethod)
    (m : ArtJniMethod)
    (h1 : get_class_name text = Except.ok (some cn))
    (h2 : get_methods text cn = Except.ok ms)
    (h3 : m ∈ ms) (h4 : m.native_method_name ∉ staticFunNames text) :
    (∃ e, parse_methods text = Except.error e) ∧
      ∀ checkOnly files stored, text ∈ files →
        ∃ e, mainRun checkOnly files stored = Except.error e := by
  obtain ⟨e, he⟩ := check_methods_error_of_missing text ms m h3 h4
  have hp : parse_methods text = Except.error e := by
    simp only [parse_methods, h1, h2, he]
  refine ⟨⟨e, hp⟩, ?_⟩
  intro checkOnly files stored hmem
  obtain ⟨e', he'⟩ := collect_error_of_mem text files hmem ⟨e, hp⟩
  exact ⟨e', by simp only [mainRun, he']⟩

theorem C1_witness :
    (∃ e, parse_methods noStaticText = Except.error e) ∧
      ∃ e, mainRun true [noStaticText] [] = Except.error e := by
  have h := C1_missing_static_faults noStaticText ("a.b.Foo".toList) [exRec] exRec
    rfl rfl (List.mem_singleton.mpr rfl) (by decide)
  exact ⟨h.1, h.2 true [noStaticText] [] (List.mem_singleton.mpr rfl)⟩

/-- C4: a file text in which the registration marker does not match
contributes no records and raises no fault, whatever else the text
contains. -/
theorem C4_no_marker_empty (text : List Char) (h : searchClassName text = none) :
    parse_methods text = Except.ok [] := by
  simp only [parse_methods, get_class_name, h]

theorem C4_witness : parse_methods noMarkerText = Except.ok [] :=
  C4_no_marker_empty noMarkerText rfl

/-- C5: when the registration marker matches again after the end of its
first match, extraction raises a fatal fault (the asserted uniqueness of the
owning class) instead of returning records. -/
theorem C5_duplicate_marker_faults (text cap rest : List Char)
    (x : List Char × List Char)
    (h1 : searchClassName text = some (cap, rest))
    (h2 : searchClassName rest = some x) :
    ∃ e, get_class_name text = Except.error e ∧
      parse_methods text = Except.error e := by
  have hg : get_class_name text =
      Except.error ("REGISTER_NATIVE_METHODS matches more than once") := by
    simp only [get_class_name, h1, h2]
  exact ⟨_, hg, by simp only [parse_methods, hg]⟩

theorem C5_witness : ∃ e, parse_methods dupMarkerText = Except.error e := by
  obtain ⟨e, _, hp⟩ := C5_duplicate_marker_faults dupMarkerText
    ("a.b.Foo".toList) ("\nREGISTER_NATIVE_METHODS(\"a.b.Bar\")\n".toList)
    ("a.b.Bar".toList, "\n".toList) rfl rfl
  exact ⟨e, hp⟩

/-- C6: if any matched native-method declaration (plain or overloaded) has a
first (class) argument different from the registered class's base name,
`_get_methods` raises a fatal fault and so does the whole extraction: no
record is produced for it. -/
theorem C6_class_mismatch_faults (text cn : List Char)
    (h1 : get_class_name text = Except.ok (some cn))
    (h2 : (∃ lit ∈ simpleLits, ∃ p ∈ finditerSimple lit text, p.1 ≠ classBaseName cn) ∨
      ∃ lit ∈ overloadLits, ∃ p ∈ finditerOverload lit text, p.1 ≠ classBaseName cn) :
    (∃ e, get_methods text cn = Except.error e) ∧
      ∃ e, parse_methods text = Except.error e := by
  have hge : ∃ e, get_methods text cn = Except.error e := by
    cases hg : get_methods text cn with
    | error e => exact ⟨e, rfl⟩
    | ok ms =>
      exfalso
      obtain ⟨hs, ho⟩ := get_methods_ok_groups text cn ms hg
      rcases h2 with ⟨lit, hl, p, hp, hne⟩ | ⟨lit, hl, p, hp, hne⟩
      · exact hne (hs lit hl p hp)
      · exact hne (ho lit hl p hp)
  obtain ⟨e, he⟩ := hge
  exact ⟨⟨e, he⟩, ⟨e, by simp only [parse_methods, h1, he]⟩⟩

theorem C6_witness : ∃ e, parse_methods wrongClassText = Except.error e := by
  have h := C6_class_mismatch_faults wrongClassText ("a.b.Foo".toList) rfl
    (Or.inl ⟨"NATIVE_METHOD(".toList, by decide,
      ("Bar".toList, "baz".toList), by decide, by decide⟩)
  exact h.2

/-- C2: with one registration marker and all declaration asserts passing,
extraction returns exactly one record per matched declaration
(`numDeclMatches`), and every record coming from the plain (non-overloaded)
declaration forms has as its symbol name the short class name joined to the
source method name by an underscore. -/
theorem C2_record_count_and_symbols (text cn : List Char) (ms : List ArtJniMethod)
    (h1 : get_class_name text = Except.ok (some cn))
    (h2 : get_methods text cn = Except.ok ms)
    (h3 : check_methods text ms = Except.ok ()) :
    parse_methods text = Except.ok ms ∧
      ms.length = numDeclMatches text ∧
      ∀ m ∈ ms.take (numSimpleMatches text),
        m.native_method_name = classBaseName cn ++ '_' :: m.java_method_name := by
  have hp := parse_methods_eq_of text cn ms h1 h2 h3
  have hms := get_methods_ok text cn ms h2
  subst hms
  refine ⟨hp, ?_, ?_⟩
  · simp only [fileRecords, List.length_append, List.length_flatten, List.map_map,
      numDeclMatches, numSimpleMatches, numOverloadMatches, Function.comp_def,
      List.length_map]
  · intro m hm
    have hA : (fileRecords text cn).take (numSimpleMatches text) =
        (simpleLits.map
          (fun lit => (finditerSimple lit text).map (mkSimpleRec cn (classBaseName cn)))).flatten := by
      have hlen : numSimpleMatches text =
          ((simpleLits.map
            (fun lit => (finditerSimple lit text).map (mkSimpleRec cn (classBaseName cn)))).flatten).length := by
        simp only [numSimpleMatches, List.length_flatten, List.map_map, Function.comp_def,
          List.length_map]
      rw [fileRecords, hlen, List.take_left]
    rw [hA] at hm
    obtain ⟨l, hl, hml⟩ := List.mem_flatten.mp hm
    obtain ⟨lit, _, rfl⟩ := List.mem_map.mp hl
    obtain ⟨p, _, rfl⟩ := List.mem_map.mp hml
    rfl

theorem C2_witness :
    parse_methods exFileText = Except.ok [exRec] ∧
      ([exRec] : List ArtJniMethod).length = numDeclMatches exFileText := by
  have h := C2_record_count_and_symbols exFileText ("a.b.Foo".toList) [exRec] rfl rfl rfl
  exact ⟨h.1, h.2.1⟩

/-- C3 counterexample: in `mixedOrderText` the `FAST_NATIVE_METHOD`
declaration of method `m1` textually precedes the `NATIVE_METHOD`
declaration of method `m2` (second conjunct exhibits the text layout), yet
extraction returns `m2`'s record before `m1`'s (first conjunct): within a
single file, records do not follow the textual declaration order. -/
theorem C3_counterexample :
    parse_methods mixedOrderText = Except.ok
      [⟨"a.b.Foo".toList, "m2".toList, "Foo_m2".toList⟩,
       ⟨"a.b.Foo".toList, "m1".toList, "Foo_m1".toList⟩] ∧
    mixedOrderText = mixedOrderPre ++
      ("FAST_NATIVE_METHOD(Foo, m1, s1)\n NATIVE_METHOD(Foo, m2, s2)\n").toList :=
  ⟨rfl, rfl⟩

theorem parse_methods_ok_structure (f : List Char) (ms : List ArtJniMethod)
    (h : parse_methods f = Except.ok ms) :
    ms = [] ∨ ∃ cn, get_class_name f = Except.ok (some cn) ∧ ms = fileRecords f cn := by
  cases hg : get_class_name f with
  | error e => simp only [parse_methods, hg] at h; cases h
  | ok o =>
    cases o with
    | none =>
      simp only [parse_methods, hg, Except.ok.injEq] at h
      exact Or.inl h.symm
    | some cn =>
      cases hm : get_methods f cn with
      | error e => simp only [parse_methods, hg, hm] at h; cases h
      | ok ms' =>
        cases hc : check_methods f ms' with
        | error e => simp only [parse_methods, hg, hm, hc] at h; cases h
        | ok u =>
          simp only [parse_methods, hg, hm, hc, Except.ok.injEq] at h
          subst h
          exact Or.inr ⟨cn, rfl, get_methods_ok f cn ms' hm⟩

/-- C3 amended: the record sequence from a successful collection is the
concatenation of the per-file record sequences in file iteration order
(records of earlier files precede records of later files); within one file,
when records exist, they follow the `fileRecords` order: grouped by
declaration pattern — the six plain patterns in their fixed order, then the
three overloaded patterns — and in textual match order within each pattern
group (not in overall textual declaration order). -/
theorem C3_order (files : List (List Char)) (out : List ArtJniMethod)
    (h : collect_art_jni_methods files = Except.ok out) :
    ∃ per : List (List ArtJniMethod),
      out = per.flatten ∧
      List.Forall₂ (fun f ms => parse_methods f = Except.ok ms ∧
        (ms = [] ∨ ∃ cn, get_class_name f = Except.ok (some cn) ∧ ms = fileRecords f cn))
        files per := by
  induction files generalizing out with
  | nil =>
    simp only [collect_art_jni_methods] at h
    cases h
    exact ⟨[], rfl, List.Forall₂.nil⟩
  | cons f fs ih =>
    cases hf : parse_methods f with
    | error e => simp only [collect_art_jni_methods, hf] at h; cases h
    | ok ms =>
      cases hc : collect_art_jni_methods fs with
      | error e => simp only [collect_art_jni_methods, hf, hc] at h; cases h
      | ok rest =>
        simp only [collect_art_jni_methods, hf, hc, Except.ok.injEq] at h
        obtain ⟨per, hper, hfa⟩ := ih rest hc
        exact ⟨ms :: per, by rw [← h, hper]; rfl,
          List.Forall₂.cons ⟨hf, parse_methods_ok_structure f ms hf⟩ hfa⟩

theorem C3_order_witness :
    ∃ per : List (List ArtJniMethod),
      ([⟨"a.b.Foo".toList, "m2".toList, "Foo_m2".toList⟩,
        ⟨"a.b.Foo".toList, "m1".toList, "Foo_m1".toList⟩] : List ArtJniMethod) = per.flatten ∧
      List.Forall₂ (fun f ms => parse_methods f = Except.ok ms ∧
        (ms = [] ∨ ∃ cn, get_class_name f = Except.ok (some cn) ∧ ms = fileRecords f cn))
        [mixedOrderText] per :=
  C3_order [mixedOrderText] _ rfl

theorem fmtLine_no_newline (m : ArtJniMethod) (h1 : '\n' ∉ m.class_name)
    (h2 : '\n' ∉ m.java_method_name) (h3 : '\n' ∉ m.native_method_name) :
    '\n' ∉ fmtLine m := by
  intro h
  rw [fmtLine] at h
  simp only [List.mem_append, List.mem_cons] at h
  rcases h with ((((h | h) | h | h) | h) | h) | h
  · revert h; decide
  · exact h1 h
  · exact absurd h (by decide)
  · exact h2 h
  · revert h; decide
  · exact h3 h
  · revert h; decide

/-- C7: the rendered text, split at newlines, is exactly the two fixed
header comment lines followed by one line per record of the form
`ART_JNI_METHOD("<class>.<method>", "art::<symbol>")`, in record order
(provided no record field smuggles in a newline, which extraction cannot
produce). -/
theorem C7_rendered_lines (ms : List ArtJniMethod)
    (h : ∀ m ∈ ms, '\n' ∉ m.class_name ∧ '\n' ∉ m.java_method_name ∧
      '\n' ∉ m.native_method_name) :
    splitNl (art_jni_methods_to_str ms) = header1 :: header2 :: ms.map fmtLine := by
  rw [art_jni_methods_to_str]
  apply splitNl_joinNl _ (List.cons_ne_nil _ _)
  intro l hl
  rcases List.mem_cons.mp hl with h1 | hl2
  · subst h1; decide
  rcases List.mem_cons.mp hl2 with h2 | hl3
  · subst h2; decide
  obtain ⟨m, hm, heq⟩ := List.mem_map.mp hl3
  subst heq
  obtain ⟨a, b, c⟩ := h m hm
  exact fmtLine_no_newline m a b c

theorem C7_witness :
    splitNl (art_jni_methods_to_str [exRec]) =
      [header1, header2,
       "ART_JNI_METHOD(\"a.b.Foo.bar\", \"art::Foo_bar\")".toList] := by
  rw [C7_rendered_lines [exRec] (by decide)]
  rfl

/-- C8: in verify (check-only) mode, given a fault-free collection, the run
exits with code 0 exactly when the freshly rendered text equals the stored
output file's text; on a mismatch it returns `False` (exit code 1); in both
cases nothing is written (`written = none`), so the stored file is never
modified. -/
theorem C8_verify_mode (files : List (List Char)) (stored : List Char)
    (ms : List ArtJniMethod)
    (h : collect_art_jni_methods files = Except.ok ms) :
    (exitCode (mainRun true files stored) = 0 ↔ art_jni_methods_to_str ms = stored) ∧
      (art_jni_methods_to_str ms = stored →
        mainRun true files stored = Except.ok ⟨true, none⟩) ∧
      (art_jni_methods_to_str ms ≠ stored →
        mainRun true files stored = Except.ok ⟨false, none⟩) := by
  have hdef : mainRun true files stored =
      if art_jni_methods_to_str ms = stored then Except.ok ⟨true, none⟩
      else Except.ok ⟨false, none⟩ := by
    unfold mainRun
    rw [h]
    simp
  by_cases heq : art_jni_methods_to_str ms = stored
  · rw [hdef, if_pos heq]
    refine ⟨⟨fun _ => heq, fun _ => by simp [exitCode]⟩, fun _ => rfl, fun hne => absurd heq hne⟩
  · rw [hdef, if_neg heq]
    refine ⟨⟨fun h0 => ?_, fun hq => absurd hq heq⟩, fun hq => absurd hq heq, fun _ => rfl⟩
    simp [exitCode] at h0

theorem C8_witness :
    exitCode (mainRun true [exFileText] (art_jni_methods_to_str [exRec])) = 0 :=
  (C8_verify_mode [exFileText] (art_jni_methods_to_str [exRec]) [exRec] rfl).1.mpr rfl

theorem dropWhile_head_false (p : Char → Bool) :
    ∀ l c t, List.dropWhile p l = c :: t → p c = false := by
  intro l
  induction l with
  | nil => intro c t h; cases h
  | cons a l ih =>
    intro c t h
    rw [List.dropWhile_cons] at h
    split at h
    · exact ih c t h
    · injection h with h1 _
      subst h1
      simpa using ‹¬ p a = true›

theorem classBaseName_split (s : List Char) :
    ∃ pre, s = pre ++ classBaseName s ∧ ('.' ∉ classBaseName s) ∧
      (pre = [] ∨ pre.getLast? = some '.') := by
  refine ⟨(s.reverse.dropWhile (fun c => c != '.')).reverse, ?_, ?_, ?_⟩
  · rw [classBaseName, ← List.reverse_append, List.takeWhile_append_dropWhile,
      List.reverse_reverse]
  · intro hmem
    rw [classBaseName, List.mem_reverse] at hmem
    have := List.mem_takeWhile_imp hmem
    simp at this
  · cases hd : s.reverse.dropWhile (fun c => c != '.') with
    | nil => left; rfl
    | cons c t =>
      right
      have hc := dropWhile_head_false _ _ c t hd
      have hcd : c = '.' := by simpa using hc
      rw [List.getLast?_reverse]
      simp [hcd]

theorem fileRecords_class_name (text cn : List Char) (m : ArtJniMethod)
    (hm : m ∈ fileRecords text cn) : m.class_name = cn := by
  rw [fileRecords] at hm
  rcases List.mem_append.mp hm with h | h
  · obtain ⟨l, hl, hml⟩ := List.mem_flatten.mp h
    obtain ⟨lit, _, rfl⟩ := List.mem_map.mp hl
    obtain ⟨p, _, rfl⟩ := List.mem_map.mp hml
    rfl
  · obtain ⟨l, hl, hml⟩ := List.mem_flatten.mp h
    obtain ⟨lit, _, rfl⟩ := List.mem_map.mp hl
    obtain ⟨p, _, rfl⟩ := List.mem_map.mp hml
    rfl

/-- C9: when the registration marker matches once, the captured class
identifier is normalised by replacing every `/` with `.` before records are
built: the resulting class name contains no `/`, every record of the file
stores it verbatim, and the short class name (used to compose symbol names)
is its suffix after the last `.` — a `.`-free tail whose preceding prefix is
empty or ends in `.`. -/
theorem C9_slash_normalisation (text cap rest : List Char)
    (h1 : searchClassName text = some (cap, rest))
    (h2 : searchClassName rest = none) :
    ∃ cn, get_class_name text = Except.ok (some cn) ∧
      cn = cap.map slashToDot ∧ ('/' ∉ cn) ∧
      (∃ pre, cn = pre ++ classBaseName cn ∧ ('.' ∉ classBaseName cn) ∧
        (pre = [] ∨ pre.getLast? = some '.')) ∧
      ∀ ms, get_methods text cn = Except.ok ms → ∀ m ∈ ms, m.class_name = cn := by
  refine ⟨cap.map slashToDot, ?_, rfl, ?_, classBaseName_split _, ?_⟩
  · simp only [get_class_name, h1, h2]
  · intro hmem
    obtain ⟨c, _, heq⟩ := List.mem_map.mp hmem
    by_cases h : c = '/'
    · rw [slashToDot, if_pos h] at heq
      exact absurd heq (by decide)
    · rw [slashToDot, if_neg h] at heq
      exact h heq
  · intro ms hms m hm
    have hfr := get_methods_ok text _ ms hms
    subst hfr
    exact fileRecords_class_name text _ m hm

theorem C9_witness :
    ∃ cn, get_class_name slashClassText = Except.ok (some cn) ∧
      cn = ("java/lang/reflect/Method".toList).map slashToDot ∧ ('/' ∉ cn) ∧
      (∃ pre, cn = pre ++ classBaseName cn ∧ ('.' ∉ classBaseName cn) ∧
        (pre = [] ∨ pre.getLast? = some '.')) ∧
      ∀ ms, get_methods slashClassText cn = Except.ok ms →
        ∀ m ∈ ms, m.class_name = cn :=
  C9_slash_normalisation slashClassText ("java/lang/reflect/Method".toList)
    ("\nstatic int Method_invoke(JNIEnv);\n NATIVE_METHOD(Method, invoke, sig)\n".toList)
    rfl rfl

theorem fmtLine_getLast (m : ArtJniMethod) : (fmtLine m).getLast? = some ')' := by
  rw [fmtLine, List.getLast?_append_of_ne_nil _ (by decide)]
  decide

/-- C10: the rendered text never ends in a newline: lines are joined by a
single `\n`, so the empty record sequence renders to exactly the two header
lines (first conjunct), each appended record contributes exactly one
`\n`-separated line (second conjunct), and the last character is the `f` of
`// clang-format off` for the empty sequence and the closing `)` of the last
record line otherwise (third conjunct); verify mode compares the stored
text against exactly this no-trailing-newline rendering (fourth conjunct,
for the empty file list). -/
theorem C10_no_trailing_newline :
    art_jni_methods_to_str [] = header1 ++ '\n' :: header2 ∧
      (∀ ms m, art_jni_methods_to_str (ms ++ [m]) =
        art_jni_methods_to_str ms ++ '\n' :: fmtLine m) ∧
      (∀ ms, (art_jni_methods_to_str ms).getLast? =
        some (if ms.isEmpty then 'f' else ')')) ∧
      ∀ stored, (mainRun true [] stored = Except.ok ⟨true, none⟩ ↔
        stored = header1 ++ '\n' :: header2) := by
  have happ : ∀ ms m, art_jni_methods_to_str (ms ++ [m]) =
      art_jni_methods_to_str ms ++ '\n' :: fmtLine m := by
    intro ms m
    rw [art_jni_methods_to_str, art_jni_methods_to_str, List.map_append,
      List.map_singleton]
    rw [show header1 :: header2 :: (ms.map fmtLine ++ [fmtLine m]) =
      (header1 :: header2 :: ms.map fmtLine) ++ [fmtLine m] from rfl]
    exact joinNl_concat _ _ (List.cons_ne_nil _ _)
  refine ⟨rfl, happ, ?_, ?_⟩
  · intro ms
    induction ms using List.reverseRecOn with
    | nil => rfl
    | append_singleton ms m ih =>
      rw [happ ms m,
        List.getLast?_append_of_ne_nil _ (List.cons_ne_nil _ _)]
      have hf := fmtLine_getLast m
      have hne : fmtLine m ≠ [] := by
        intro h0
        rw [h0] at hf
        cases hf
      rw [show ('\n' :: fmtLine m) = ['\n'] ++ fmtLine m from rfl,
        List.getLast?_append_of_ne_nil _ hne, hf]
      have hem : (ms ++ [m]).isEmpty = false := by cases ms <;> rfl
      rw [hem]
      rfl
  · intro stored
    have hdef : mainRun true [] stored =
        if art_jni_methods_to_str [] = stored then Except.ok ⟨true, none⟩
        else Except.ok ⟨false, none⟩ := by
      unfold mainRun
      rw [show collect_art_jni_methods [] = Except.ok [] from rfl]
      simp
    by_cases heq : art_jni_methods_to_str [] = stored
    · rw [hdef, if_pos heq]
      exact ⟨fun _ => heq.symm, fun _ => rfl⟩
    · rw [hdef, if_neg heq]
      constructor
      · intro h0
        simp at h0
      · intro hst
        exact absurd hst.symm heq

/-! ## Fuel adequacy of `finditer`

Every anchored matcher consumes at least one character on success, so
`finditerAux` with any fuel of at least `text.length` computes the same
match list: the fuel in `finditer` never runs out before the text does. -/

theorem dropWhile_length_le (p : Char → Bool) (l : List Char) :
    (l.dropWhile p).length ≤ l.length :=
  (List.dropWhile_suffix p).sublist.length_le

theorem spanWord_length (l g r : List Char) (h : spanWord l = some (g, r)) :
    r.length ≤ l.length := by
  rw [spanWord] at h
  split at h
  · cases h
  · simp only [Option.some.injEq, Prod.mk.injEq] at h
    obtain ⟨_, h2⟩ := h
    rw [← h2]
    exact dropWhile_length_le _ _

theorem spanSpace1_length (l r : List Char) (h : spanSpace1 l = some r) :
    r.length < l.length := by
  cases l with
  | nil => cases h
  | cons c tl =>
    simp only [spanSpace1] at h
    split at h
    · injection h with h1
      subst h1
      have := dropWhile_length_le isSpaceChar tl
      simp only [List.length_cons]
      omega
    · cases h

theorem matchArgs2_length (l : List Char) (a : List Char × List Char)
    (rest : List Char) (h : matchArgs2 l = some (a, rest)) :
    rest.length ≤ l.length := by
  rw [matchArgs2] at h
  split at h
  · cases h
  · rename_i g1 r2 heq1
    split at h
    · rename_i r3 heq2
      split at h
      · cases h
      · rename_i g2 r4 heq3
        simp only [Option.some.injEq, Prod.mk.injEq] at h
        obtain ⟨_, h4⟩ := h
        subst h4
        have l1 := spanWord_length _ _ _ heq3
        have l2 := dropWhile_length_le isSpaceChar r3
        have l3 := dropWhile_length_le isSpaceChar r2
        rw [heq2] at l3
        simp only [List.length_cons] at l3
        have l4 := spanWord_length _ _ _ heq1
        have l5 := dropWhile_length_le isSpaceChar l
        omega
    · cases h

theorem matchArgs3_length (l : List Char) (a : List Char × List Char × List Char)
    (rest : List Char) (h : matchArgs3 l = some (a, rest)) :
    rest.length ≤ l.length := by
  rw [matchArgs3] at h
  split at h
  · cases h
  · rename_i g1 r2 heq1
    split at h
    · rename_i r3 heq2
      split at h
      · cases h
      · rename_i g2 r4 heq3
        split at h
        · rename_i r5 heq4
          split at h
          · rename_i r6 heq5
            split at h
            · cases h
            · rename_i g3 r7 heq6
              simp only [Option.some.injEq, Prod.mk.injEq] at h
              obtain ⟨_, h7⟩ := h
              subst h7
              have l1 := spanWord_length _ _ _ heq6
              have l2 := dropWhile_length_le isSpaceChar r6
              have l3 := dropWhile_length_le (fun c => c != ',') r5
              rw [heq5] at l3
              simp only [List.length_cons] at l3
              have l4 := dropWhile_length_le isSpaceChar r4
              rw [heq4] at l4
              simp only [List.length_cons] at l4
              have l5 := spanWord_length _ _ _ heq3
              have l6 := dropWhile_length_le isSpaceChar r3
              have l7 := dropWhile_length_le isSpaceChar r2
              rw [heq2] at l7
              simp only [List.length_cons] at l7
              have l8 := spanWord_length _ _ _ heq1
              have l9 := dropWhile_length_le isSpaceChar l
              omega
          · cases h
        · cases h
    · cases h

theorem matchSimpleAt_length (lit l : List Char) (a : List Char × List Char)
    (rest : List Char) (h : matchSimpleAt lit l = some (a, rest)) :
    rest.length < l.length := by
  rw [matchSimpleAt] at h
  split at h
  · cases h
  · rename_i r1 heq
    split at h
    · have h2 := matchArgs2_length _ _ _ h
      have h3 : (r1.drop lit.length).length ≤ r1.length := by
        rw [List.length_drop]
        omega
      have h4 := spanSpace1_length l r1 heq
      omega
    · cases h

theorem matchOverloadAt_length (lit l : List Char)
    (a : List Char × List Char × List Char) (rest : List Char)
    (h : matchOverloadAt lit l = some (a, rest)) : rest.length < l.length := by
  rw [matchOverloadAt] at h
  split at h
  · cases h
  · rename_i r1 heq
    split at h
    · have h2 := matchArgs3_length _ _ _ h
      have h3 : (r1.drop lit.length).length ≤ r1.length := by
        rw [List.length_drop]
        omega
      have h4 := spanSpace1_length l r1 heq
      omega
    · cases h

theorem matchStaticAt_length (l : List Char) (a rest : List Char)
    (h : matchStaticAt l = some (a, rest)) : rest.length < l.length := by
  rw [matchStaticAt] at h
  split at h
  · split at h
    · cases h
    · rename_i r1 heq1
      split at h
      · cases h
      · rename_i w r2 heq2
        split at h
        · cases h
        · rename_i r3 heq3
          split at h
          · cases h
          · rename_i g r4 heq4
            split at h
            · rename_i r5
              simp only [Option.some.injEq, Prod.mk.injEq] at h
              obtain ⟨_, h5⟩ := h
              subst h5
              have l1 := spanSpace1_length _ _ heq1
              rw [List.length_drop] at l1
              have l2 := spanWord_length _ _ _ heq2
              have l3 := spanSpace1_length _ _ heq3
              have l4 := spanWord_length _ _ _ heq4
              rename_i harr
              simp only [List.length_cons] at *
              omega
            · cases h
  · cases h

theorem finditerAux_fuel_irrelevant {α : Type}
    (matchAt : List Char → Option (α × List Char))
    (hm : ∀ l a rest, matchAt l = some (a, rest) → rest.length < l.length) :
    ∀ f1 f2 text, text.length ≤ f1 → text.length ≤ f2 →
      finditerAux matchAt f1 text = finditerAux matchAt f2 text := by
  intro f1
  induction f1 with
  | zero =>
    intro f2 text h1 h2
    have htext : text = [] := List.eq_nil_of_length_eq_zero (Nat.le_zero.mp h1)
    subst htext
    cases f2 <;> rfl
  | succ f1 ih =>
    intro f2 text h1 h2
    cases text with
    | nil => cases f2 <;> rfl
    | cons c tl =>
      cases f2 with
      | zero => simp at h2
      | succ f2' =>
        simp only [finditerAux]
        cases hmt : matchAt (c :: tl) with
        | none =>
          have htl : tl.length ≤ f1 := by
            simp only [List.length_cons] at h1
            omega
          have htl2 : tl.length ≤ f2' := by
            simp only [List.length_cons] at h2
            omega
          exact ih f2' tl htl htl2
        | some p =>
          obtain ⟨a, rest⟩ := p
          have hr := hm _ _ _ hmt
          simp only [List.length_cons] at h1 h2 hr
          exact congrArg (List.cons a) (ih f2' rest (by omega) (by omega))

/-- Any fuel of at least `text.length` computes `finditerSimple`. -/
theorem finditerSimple_fuel (lit text : List Char) (fuel : Nat)
    (hf : text.length ≤ fuel) :
    finditerAux (matchSimpleAt lit) fuel text = finditerSimple lit text :=
  finditerAux_fuel_irrelevant _ (matchSimpleAt_length lit) fuel text.length text hf
    le_rfl

/-- Any fuel of at least `text.length` computes `finditerOverload`. -/
theorem finditerOverload_fuel (lit text : List Char) (fuel : Nat)
    (hf : text.length ≤ fuel) :
    finditerAux (matchOverloadAt lit) fuel text = finditerOverload lit text :=
  finditerAux_fuel_irrelevant _ (matchOverloadAt_length lit) fuel text.length text hf
    le_rfl

/-- Any fuel of at least `text.length` computes `staticFunNames`. -/
theorem staticFunNames_fuel (text : List Char) (fuel : Nat)
    (hf : text.length ≤ fuel) :
    finditerAux matchStaticAt fuel text = staticFunNames text :=
  finditerAux_fuel_irrelevant _ matchStaticAt_length fuel text.length text hf le_rfl
